import Mathlib

/-!
Verification development for `CalReport.py` (RocNY calendar audit).

The Python source is shallowly embedded below.  Text processing works on
`List Char` (Python `str` methods are modelled character by character,
restricted to the ASCII behaviour that the program exercises); the pandas
DataFrame pipeline is modelled as `List Event` with explicit `Except`
results where the library raises; the network, the icalendar parser and
the wall clock are an explicit oracle (`Net`).
-/

namespace CalReport

/-! ### Text sanitisation (`sanitize_text`, CalReport.py lines 12-19) -/

/-- Python `str.split()` whitespace, restricted to the ASCII whitespace
characters (`' '`, `\t`, `\n`, `\r`, `\x0B`, `\x0C`). -/
def isPySpace (c : Char) : Bool :=
  c = ' ' || c = '\t' || c = '\n' || c = '\r' || c = '\x0B' || c = '\x0C'

/-- Helper for the regex `<[^>]*>`: drop characters up to and including the
first `'>'`; `none` when the list has no `'>'` (then no match can start at
the pending `'<'`, nor anywhere later). -/
def dropTag : List Char → Option (List Char)
  | [] => none
  | c :: rest => if c = '>' then some rest else dropTag rest

/-- `re.sub(r'<[^>]*>', '', text)` (line 16), fuel-indexed so that the
recursion is structural.  Each match runs from a `'<'` to the first `'>'`
after it; a `'<'` with no later `'>'` matches nothing, and then nothing
later can match either. -/
def stripTagsF : Nat → List Char → List Char
  | _, [] => []
  | 0, s => s
  | fuel + 1, c :: rest =>
    if c = '<' then
      match dropTag rest with
      | some rest2 => stripTagsF fuel rest2
      | none => c :: rest
    else
      c :: stripTagsF fuel rest

/-- `re.sub(r'<[^>]*>', '', text)`: the fuel `s.length` always suffices. -/
def stripTags (s : List Char) : List Char := stripTagsF s.length s

/-- Python `str.replace(old, new)`: left-to-right, non-overlapping,
restarting after the replacement (fuel-indexed structural recursion). -/
def replaceAllF (old new : List Char) : Nat → List Char → List Char
  | _, [] => []
  | 0, s => s
  | fuel + 1, c :: rest =>
    if old ≠ [] ∧ old.isPrefixOf (c :: rest) then
      new ++ replaceAllF old new fuel ((c :: rest).drop old.length)
    else
      c :: replaceAllF old new fuel rest

/-- Python `str.replace(old, new)` for non-empty `old` (lines 17-18). -/
def replaceAll (old new s : List Char) : List Char := replaceAllF old new s.length s

/-- Python `old in s` (substring test). -/
def hasSubstr (pat : List Char) : List Char → Bool
  | [] => pat.isEmpty
  | c :: rest => pat.isPrefixOf (c :: rest) || hasSubstr pat rest

/-- Python `str.split()` (no separator): maximal runs of non-whitespace,
leading/trailing/repeated whitespace discarded (fuel-indexed). -/
def splitWsF : Nat → List Char → List (List Char)
  | _, [] => []
  | 0, s => [s]
  | fuel + 1, c :: rest =>
    if isPySpace c then
      splitWsF fuel rest
    else
      (c :: rest.takeWhile (fun d => !isPySpace d)) ::
        splitWsF fuel (rest.dropWhile (fun d => !isPySpace d))

/-- Python `str.split()`. -/
def splitWs (s : List Char) : List (List Char) := splitWsF s.length s

/-- Python `' '.join(words)`. -/
def joinWords : List (List Char) → List Char
  | [] => []
  | [w] => w
  | w :: ws => w ++ ' ' :: joinWords ws

/-- Lines 16-18 of `sanitize_text`: tag stripping, the three entity
replacements, and the carriage-return/newline replacements, in source
order. -/
def sanitizeCore (text : String) : List Char :=
  let t1 := stripTags text.data
  let t2 := replaceAll "&nbsp;".data " ".data t1
  let t3 := replaceAll "&amp;".data "&".data t2
  let t4 := replaceAll "&quot;".data "\"".data t3
  (t4.map fun c => if c = '\r' then ' ' else c).map fun c => if c = '\n' then ' ' else c

/-- `sanitize_text` (lines 12-19).  Python `not text` on a string is the
emptiness test; the `None` case is handled by `sanitizeOpt` below.  Line
19 (`' '.join(text.split())`) is the final split/join. -/
def sanitize_text (text : String) : String :=
  if text = "" ∨ text = "N/A" then "N/A"
  else String.mk (joinWords (splitWs (sanitizeCore text)))

/-- `sanitize_text` as called on event attributes, which may be Python
`None` (`not None` is true, so the sentinel is returned). -/
def sanitizeOpt : Option String → String
  | none => "N/A"
  | some s => sanitize_text s

/-- Does the list contain a `'>'`? -/
def hasGt : List Char → Bool
  | [] => false
  | c :: rest => if c = '>' then true else hasGt rest

/-- No substring matches the tag regex `<[^>]*>`: after the first `'<'`
(if any) there is no `'>'`. -/
def tagFree : List Char → Bool
  | [] => true
  | c :: rest => if c = '<' then !hasGt rest else tagFree rest

/-- Angle-bracket characters, the only ones the tag regex inspects. -/
def isAngle (c : Char) : Bool := c = '<' || c = '>'

/-- The subsequence of angle-bracket characters of a list. -/
def angles (s : List Char) : List Char := s.filter isAngle

/-- The shape of `str.split()` output: nonempty words without whitespace
characters. -/
def goodWords (ws : List (List Char)) : Prop :=
  ∀ w ∈ ws, w ≠ [] ∧ ∀ c ∈ w, isPySpace c = false

/-! ### Canonical events (the DataFrame rows built in lines 34-47) -/

/-- One row of the DataFrames built by `fetch_calendar` (lines 37-47).
`DateTime24` holds the zone-aware instant `local_start`; only its order
matters, so it is embedded as an integer timeline. -/
structure Event where
  FromCal : String
  Summary : String
  DateTime : String
  DateTime24 : Int
  Weekday : String
  Location : String
  Description : String
  Recurring : Bool
  UID : String
deriving DecidableEq

/-- Python `str.lower()`: characterwise lowercasing (faithful on ASCII,
which is all the fingerprints exercise). -/
def strLower (s : String) : String := String.mk (s.data.map Char.toLower)

/-- The fingerprint of a row (lines 83-84):
`df['Summary'].str.lower() + df['DateTime']`. -/
def fingerprint (e : Event) : String := strLower e.Summary ++ e.DateTime

/-- A parsed icalendar event as returned by `icalevents.parse_events`
(an external collaborator).  Text attributes may be Python `None`
(`Option.none`); `uid = none` models `hasattr(ev, 'uid') == False`.
`startDisplay`, `startLocal` and `startWeekday` are the three projections
of `ev.start.astimezone()` that lines 40-42 take (`strftime` of the
external datetime library is not re-specified). -/
structure RawEvent where
  summary : Option String
  location : Option String
  description : Option String
  recurring : Bool
  uid : Option String
  startDisplay : String
  startLocal : Int
  startWeekday : String

/-- The loop body of lines 36-47: one raw event to one DataFrame row. -/
def normalizeEvent (name : String) (ev : RawEvent) : Event :=
  { FromCal := name
    Summary := sanitizeOpt ev.summary
    DateTime := ev.startDisplay
    DateTime24 := ev.startLocal
    Weekday := ev.startWeekday
    Location := sanitizeOpt ev.location
    Description := sanitizeOpt ev.description
    Recurring := ev.recurring
    UID := match ev.uid with
      | some u => u
      | none => "N/A" }

/-! ### Retrieval (`fetch_calendar`, lines 21-51) -/

/-- Python exceptions that the embedded fragments can raise. -/
inductive PyErr where
  | nameError
  | keyError
  | httpError
  | netError
deriving DecidableEq

/-- An HTTP response; `raise_for_status` (line 24) raises iff `ok` is
false. -/
structure HttpResponse where
  ok : Bool
  text : String

/-- The external world: network, icalendar parser, wall clock.  `get`
models a library `get` call (it may raise); `parse_events content start
end` is the external parser restricted to the supplied window. -/
structure Net where
  get : String → Except PyErr HttpResponse
  parse_events : String → Int → Int → List RawEvent
  nowUtc : Int

/-- The names bound at module level in CalReport.py: the imports of lines
1-6 and the module-level definitions.  `requests` is not among them, so
evaluating the name `requests` in line 23 raises `NameError`. -/
def moduleNames : List String :=
  ["st", "pd", "re", "httpx", "parse_events",
   "datetime", "timedelta", "timezone",
   "sanitize_text", "fetch_calendar", "MASTER_URL", "COMMUNITY_SOURCES"]

/-- `timedelta(days=30)` in seconds (line 31). -/
def thirtyDays : Int := 30 * 24 * 60 * 60

/-- The `try` body of `fetch_calendar` (lines 22-48).  Line 23 first
resolves the name `requests`; the module never defines it, so the body
raises `NameError` before anything else runs. -/
def fetch_calendar_try (net : Net) (name url : String) :
    Except PyErr (List Event) :=
  if "requests" ∈ moduleNames then do
    let response ← net.get url
    if response.ok then pure () else throw PyErr.httpError
    let content := response.text
    if hasSubstr "BEGIN:VCALENDAR".data content.toUpper.data then do
      let evs := net.parse_events content net.nowUtc (net.nowUtc + thirtyDays)
      pure (evs.map (normalizeEvent name))
    else
      pure []
  else
    throw PyErr.nameError

/-- `fetch_calendar` (lines 21-51): the catch-all handler of lines 49-51
turns every exception into an empty contribution. -/
def fetch_calendar (net : Net) (name url : String) : List Event :=
  match fetch_calendar_try net name url with
  | .ok data => data
  | .error _ => []

/-- The community aggregation loop of lines 71-74:
`all_community.extend(fetch_calendar(name, url))` over the ordered
sources. -/
def aggregateCommunity (net : Net) : List (String × String) → List Event
  | [] => []
  | (name, url) :: rest =>
      fetch_calendar net name url ++ aggregateCommunity net rest

/-! ### Reconciliation (lines 79-120) -/

/-- The three result tabs. -/
structure Partition where
  missing : List Event
  synced : List Event
  io_only : List Event
deriving DecidableEq

/-- Lines 83-84: `df['Summary'].str.lower() + df['DateTime']`.  A
DataFrame built from an empty record list has no columns at all, so the
column access `df['Summary']` raises `KeyError` when the input list is
empty; otherwise the fingerprint column is the row-wise map. -/
def fingerprintColumn (df : List Event) : Except PyErr (List String) :=
  if df.isEmpty then .error .keyError
  else .ok (df.map fingerprint)

/-- Lines 83-120 minus the rendering: fingerprint columns, key sets
(membership in a Python `set` of strings is membership in the list of
fingerprints), and the three boolean-mask filters of lines 98, 111
and 117. -/
def reconcileE (master community : List Event) : Except PyErr Partition := do
  let masterFp ← fingerprintColumn master
  let communityFp ← fingerprintColumn community
  let master_keys := masterFp
  let community_keys := communityFp
  let missing := community.filter fun e => !(master_keys.contains (fingerprint e))
  let synced := community.filter fun e => master_keys.contains (fingerprint e)
  let io_only := master.filter fun e => !(community_keys.contains (fingerprint e))
  pure { missing := missing, synced := synced, io_only := io_only }

/-- Outcome of the post-fetch part of a run (lines 79-120). -/
inductive RunResult where
  | critical
  | report (p : Partition)
  | raised (e : PyErr)
deriving DecidableEq

/-- Lines 79-120 given the fetched event lists: the critical branch fires
only when both lists are empty (line 79); otherwise the reconciliation
runs, and any exception it raises escapes uncaught (there is no handler
around lines 81-120). -/
def runAfterFetch (master community : List Event) : RunResult :=
  if master.isEmpty ∧ community.isEmpty then .critical
  else
    match reconcileE master community with
    | .ok p => .report p
    | .error e => .raised e

/-! ### Report assembly (lines 101, 113, 120) -/

/-- Insertion step of the `sort_values('DateTime24')` model. -/
def insertByTime (e : Event) : List Event → List Event
  | [] => [e]
  | f :: rest =>
      if e.DateTime24 ≤ f.DateTime24 then e :: f :: rest
      else f :: insertByTime e rest

/-- `df.sort_values('DateTime24')`: a sort keyed on the zone-aware
instant alone. -/
def sort_values_DateTime24 : List Event → List Event
  | [] => []
  | e :: rest => insertByTime e (sort_values_DateTime24 rest)

/-- Row order of the missing tab (line 101). -/
def missingRows (p : Partition) : List Event := sort_values_DateTime24 p.missing

/-- Line 101: `missing.sort_values('DateTime24')[['FromCal', 'DateTime',
'Weekday', 'Summary', 'Location']]`. -/
def missingTable (p : Partition) : List (List String) :=
  (missingRows p).map fun e => [e.FromCal, e.DateTime, e.Weekday, e.Summary, e.Location]

/-- Row order of the synced tab (line 113). -/
def syncedRows (p : Partition) : List Event := sort_values_DateTime24 p.synced

/-- Line 113: `synced.sort_values('DateTime24')[['FromCal', 'DateTime',
'Weekday', 'Summary']]`. -/
def syncedTable (p : Partition) : List (List String) :=
  (syncedRows p).map fun e => [e.FromCal, e.DateTime, e.Weekday, e.Summary]

/-- Row order of the master-only tab (line 120). -/
def ioOnlyRows (p : Partition) : List Event := sort_values_DateTime24 p.io_only

/-- Line 120: `io_only.sort_values('DateTime24')[['DateTime', 'Weekday',
'Summary', 'Location']]`. -/
def ioOnlyTable (p : Partition) : List (List String) :=
  (ioOnlyRows p).map fun e => [e.DateTime, e.Weekday, e.Summary, e.Location]

/-- Strict lexicographic order on character lists (the natural order on
source labels). -/
def lexLt : List Char → List Char → Bool
  | [], [] => false
  | [], _ :: _ => true
  | _ :: _, [] => false
  | a :: as, b :: bs => if a < b then true else if a = b then lexLt as bs else false

/-- Row order claimed by the spec for the report assembler: source label
first, zone-aware instant second. -/
def bySourceThenTime (a b : Event) : Prop :=
  lexLt a.FromCal.data b.FromCal.data = true ∨
    (a.FromCal = b.FromCal ∧ a.DateTime24 ≤ b.DateTime24)

instance : DecidableRel bySourceThenTime := fun a b => by
  unfold bySourceThenTime; infer_instance

/-- Chronological order on rows (the key actually used by the code). -/
def timeLe (a b : Event) : Prop := a.DateTime24 ≤ b.DateTime24

instance : DecidableRel timeLe := fun a b => by
  unfold timeLe; infer_instance

/-! ### Sample data used by concrete evaluations -/

/-- A canonical event, as a master row. -/
def sampleEvent : Event :=
  { FromCal := "RocNY", Summary := "Rally", DateTime := "2025-05-01 10:00 AM"
    DateTime24 := 100, Weekday := "Thursday", Location := "Downtown"
    Description := "March", Recurring := false, UID := "uid-1" }

/-- A community event not matching `sampleEvent`'s fingerprint. -/
def sampleEvent2 : Event :=
  { FromCal := "GVI", Summary := "Vigil", DateTime := "2025-05-02 06:00 PM"
    DateTime24 := 200, Weekday := "Friday", Location := "Park"
    Description := "Vigil", Recurring := true, UID := "uid-2" }

/-- A community event matching `sampleEvent`'s fingerprint up to title
case, with every non-identity field different. -/
def sampleEvent3 : Event :=
  { FromCal := "GVI", Summary := "RALLY", DateTime := "2025-05-01 10:00 AM"
    DateTime24 := 100, Weekday := "Thursday", Location := "Elsewhere"
    Description := "Other text", Recurring := true, UID := "uid-3" }

/-- An oracle whose network always fails; any oracle works for the
claims below, this one only feeds witnesses. -/
def sampleNet : Net :=
  { get := fun _ => .error .netError
    parse_events := fun _ _ _ => []
    nowUtc := 0 }

/-- Same identity fields as `sampleEvent3`, every display-only field
different. -/
def sampleEvent4 : Event :=
  { FromCal := "IndiWMC", Summary := "RALLY", DateTime := "2025-05-01 10:00 AM"
    DateTime24 := 101, Weekday := "Thu", Location := "Main St"
    Description := "Different", Recurring := false, UID := "uid-4" }

/-- A community event from a late-alphabet source at an early time. -/
def cexZ : Event :=
  { FromCal := "ZZZ", Summary := "Zebra talk", DateTime := "2025-05-01 09:00 AM"
    DateTime24 := 1, Weekday := "Thursday", Location := "Zoo"
    Description := "Zt", Recurring := false, UID := "uid-z" }

/-- A community event from an early-alphabet source at a later time. -/
def cexA : Event :=
  { FromCal := "AAA", Summary := "Art walk", DateTime := "2025-05-02 09:00 AM"
    DateTime24 := 2, Weekday := "Friday", Location := "Gallery"
    Description := "Aw", Recurring := false, UID := "uid-a" }

/-- A raw event with every optional attribute absent. -/
def sampleRaw : RawEvent :=
  { summary := none, location := none, description := none
    recurring := false, uid := none
    startDisplay := "2025-05-03 01:00 PM", startLocal := 300
    startWeekday := "Saturday" }

/-! ### Shared helper lemmas -/

theorem aggregateCommunity_append (net : Net) (l1 l2 : List (String × String)) :
    aggregateCommunity net (l1 ++ l2) =
      aggregateCommunity net l1 ++ aggregateCommunity net l2 := by
  induction l1 with
  | nil => rfl
  | cons s rest ih =>
      cases s
      simp [aggregateCommunity, ih]

/-! Lemmas about the tag-stripping pass. -/

theorem dropTag_eq_none_iff (s : List Char) :
    dropTag s = none ↔ hasGt s = false := by
  induction s with
  | nil => simp [dropTag, hasGt]
  | cons c rest ih =>
      by_cases hc : c = '>' <;> simp [dropTag, hasGt, hc, ih]

theorem dropTag_some_length (s t : List Char) (h : dropTag s = some t) :
    t.length < s.length := by
  induction s generalizing t with
  | nil => simp [dropTag] at h
  | cons c rest ih =>
      by_cases hc : c = '>' <;> simp [dropTag, hc] at h
      · subst h
        simp [List.length_cons]
      · exact Nat.lt_trans (ih t h) (Nat.lt_succ_self _)

theorem tagFree_stripTagsF (fuel : Nat) (s : List Char)
    (hlen : s.length ≤ fuel) : tagFree (stripTagsF fuel s) = true := by
  induction fuel generalizing s with
  | zero =>
      have : s = [] := List.length_eq_zero.mp (Nat.le_zero.mp hlen)
      subst this
      rfl
  | succ fuel ih =>
      cases s with
      | nil => rfl
      | cons c rest =>
          have hr : rest.length ≤ fuel := by
            simp [List.length_cons] at hlen
            omega
          by_cases hc : c = '<'
          · subst hc
            cases hdt : dropTag rest with
            | none =>
                simp [stripTagsF, hdt, tagFree]
                exact (dropTag_eq_none_iff rest).mp hdt
            | some rest2 =>
                have h2 : rest2.length ≤ fuel :=
                  Nat.le_of_lt (Nat.lt_of_lt_of_le (dropTag_some_length rest rest2 hdt) hr)
                simpa [stripTagsF, hdt] using ih rest2 h2
          · simpa [stripTagsF, hc, tagFree] using ih rest hr

theorem stripTagsF_of_tagFree (fuel : Nat) (s : List Char)
    (h : tagFree s = true) : stripTagsF fuel s = s := by
  induction fuel generalizing s with
  | zero => cases s <;> rfl
  | succ fuel ih =>
      cases s with
      | nil => rfl
      | cons c rest =>
          by_cases hc : c = '<'
          · subst hc
            simp [tagFree] at h
            have : dropTag rest = none := (dropTag_eq_none_iff rest).mpr h
            simp [stripTagsF, this]
          · simp [tagFree, hc] at h
            simp [stripTagsF, hc, ih rest h]

/-! Lemmas about the angle-character subsequence: the later passes leave
it unchanged, so tag-freedom survives them. -/

theorem angles_append (a b : List Char) :
    angles (a ++ b) = angles a ++ angles b := by
  simp [angles, List.filter_append]

theorem hasGt_angles (s : List Char) : hasGt (angles s) = hasGt s := by
  induction s with
  | nil => rfl
  | cons c rest ih =>
      by_cases hc : c = '>'
      · subst hc
        simp [angles, List.filter, isAngle, hasGt]
      · by_cases ha : isAngle c = true <;>
          simp [angles, List.filter, ha, hasGt, hc] at ih ⊢ <;>
          simpa [angles] using ih

theorem tagFree_angles (s : List Char) : tagFree (angles s) = tagFree s := by
  induction s with
  | nil => rfl
  | cons c rest ih =>
      by_cases hlt : c = '<'
      · subst hlt
        simp [angles, List.filter, isAngle, tagFree]
        simpa [angles] using hasGt_angles rest
      · by_cases hgt : c = '>'
        · subst hgt
          simp [angles, List.filter, isAngle, tagFree]
          simpa [angles] using ih
        · have ha : isAngle c = false := by
            simp [isAngle, hlt, hgt]
          simp [angles, List.filter, ha, tagFree, hlt]
          simpa [angles] using ih

theorem angles_replaceAllF (old new : List Char) (fuel : Nat) (s : List Char)
    (hold : angles old = []) (hnew : angles new = []) :
    angles (replaceAllF old new fuel s) = angles s := by
  induction fuel generalizing s with
  | zero => cases s <;> rfl
  | succ fuel ih =>
      cases s with
      | nil => rfl
      | cons c rest =>
          by_cases hp : old ≠ [] ∧ old.isPrefixOf (c :: rest)
          · have hstep : replaceAllF old new (fuel + 1) (c :: rest) =
                new ++ replaceAllF old new fuel ((c :: rest).drop old.length) := by
              simp only [replaceAllF]
              rw [if_pos hp]
            rw [hstep]
            obtain ⟨t, ht⟩ := List.isPrefixOf_iff_prefix.mp hp.2
            rw [angles_append, hnew, List.nil_append, ih _]
            conv_rhs => rw [← ht]
            rw [← ht, List.drop_left, angles_append, hold, List.nil_append]
          · have hstep : replaceAllF old new (fuel + 1) (c :: rest) =
                c :: replaceAllF old new fuel rest := by
              simp only [replaceAllF]
              rw [if_neg hp]
            rw [hstep]
            by_cases ha : isAngle c = true <;>
              simp [angles, List.filter, ha] <;> simpa [angles] using ih rest

theorem replaceAllF_of_not_hasSubstr (old new : List Char) (fuel : Nat)
    (s : List Char) (h : hasSubstr old s = false) :
    replaceAllF old new fuel s = s := by
  induction fuel generalizing s with
  | zero => cases s <;> rfl
  | succ fuel ih =>
      cases s with
      | nil => rfl
      | cons c rest =>
          simp [hasSubstr] at h
          simp [replaceAllF, h.1, ih rest h.2]

theorem map_id_on (f : Char → Char) (s : List Char)
    (h : ∀ c ∈ s, f c = c) : s.map f = s := by
  induction s with
  | nil => rfl
  | cons c rest ih =>
      simp [List.map, h c (List.mem_cons_self c rest)]
      exact ih fun d hd => h d (List.mem_cons_of_mem c hd)

theorem angles_map (f : Char → Char) (s : List Char)
    (hfix : ∀ c, isAngle c = true → f c = c)
    (hkeep : ∀ c, isAngle (f c) = isAngle c) :
    angles (s.map f) = angles s := by
  induction s with
  | nil => rfl
  | cons c rest ih =>
      by_cases ha : isAngle c = true
      · simp [angles, List.filter, hkeep c, ha, hfix c ha] at ih ⊢
        simpa [angles] using ih
      · simp at ha
        simp [angles, List.filter, hkeep c, ha] at ih ⊢
        simpa [angles] using ih

/-! Lemmas about the whitespace split/join pass. -/

theorem length_dropWhile_le (p : Char → Bool) (l : List Char) :
    (l.dropWhile p).length ≤ l.length := by
  induction l with
  | nil => simp
  | cons c rest ih =>
      rw [List.dropWhile_cons]
      by_cases hc : p c = true
      · simp only [hc, if_true]
        exact Nat.le_succ_of_le ih
      · simp [hc]

theorem splitWsF_eq (fuel : Nat) : ∀ (s : List Char), s.length ≤ fuel →
    splitWsF fuel s = splitWs s := by
  induction fuel using Nat.strong_induction_on with
  | _ fuel ih =>
      intro s hlen
      cases s with
      | nil => cases fuel <;> rfl
      | cons c rest =>
          cases fuel with
          | zero => simp at hlen
          | succ f =>
              have hr : rest.length ≤ f := by
                simp [List.length_cons] at hlen
                omega
              by_cases hc : isPySpace c = true
              · show splitWsF (f + 1) (c :: rest) = splitWsF (rest.length + 1) (c :: rest)
                simp only [splitWsF, hc, if_true]
                rw [ih f (Nat.lt_succ_self f) rest hr]
                rfl
              · have hc' : isPySpace c = false := by simpa using hc
                show splitWsF (f + 1) (c :: rest) = splitWsF (rest.length + 1) (c :: rest)
                have hd : (rest.dropWhile fun d => !isPySpace d).length ≤ rest.length :=
                  length_dropWhile_le _ rest
                simp only [splitWsF, hc', Bool.false_eq_true, if_false]
                rw [ih f (Nat.lt_succ_self f) _ (Nat.le_trans hd hr),
                  ih rest.length (Nat.lt_succ_of_le hr) _ hd]

theorem splitWs_cons_space (c : Char) (rest : List Char)
    (h : isPySpace c = true) : splitWs (c :: rest) = splitWs rest := by
  show splitWsF (rest.length + 1) (c :: rest) = splitWs rest
  simp only [splitWsF, h, if_true]
  rfl

theorem splitWs_cons_word (c : Char) (rest : List Char)
    (h : isPySpace c = false) :
    splitWs (c :: rest) = (c :: rest.takeWhile fun d => !isPySpace d) ::
      splitWs (rest.dropWhile fun d => !isPySpace d) := by
  show splitWsF (rest.length + 1) (c :: rest) = _
  simp only [splitWsF, h, Bool.false_eq_true, if_false]
  rw [splitWsF_eq rest.length _ (length_dropWhile_le _ rest)]

theorem takeWhile_all (p : Char → Bool) (l : List Char)
    (h : ∀ c ∈ l, p c = true) : l.takeWhile p = l := by
  induction l with
  | nil => rfl
  | cons c rest ih =>
      rw [List.takeWhile_cons, if_pos (h c (List.mem_cons_self c rest))]
      rw [ih fun d hd => h d (List.mem_cons_of_mem c hd)]

theorem dropWhile_all (p : Char → Bool) (l : List Char)
    (h : ∀ c ∈ l, p c = true) : l.dropWhile p = [] := by
  induction l with
  | nil => rfl
  | cons c rest ih =>
      rw [List.dropWhile_cons, if_pos (h c (List.mem_cons_self c rest))]
      exact ih fun d hd => h d (List.mem_cons_of_mem c hd)

theorem takeWhile_append_all (p : Char → Bool) (w r : List Char)
    (h : ∀ c ∈ w, p c = true) :
    (w ++ r).takeWhile p = w ++ r.takeWhile p := by
  induction w with
  | nil => rfl
  | cons c rest ih =>
      rw [List.cons_append, List.takeWhile_cons,
        if_pos (h c (List.mem_cons_self c rest))]
      rw [ih fun d hd => h d (List.mem_cons_of_mem c hd)]
      rfl

theorem dropWhile_append_all (p : Char → Bool) (w r : List Char)
    (h : ∀ c ∈ w, p c = true) :
    (w ++ r).dropWhile p = r.dropWhile p := by
  induction w with
  | nil => rfl
  | cons c rest ih =>
      rw [List.cons_append, List.dropWhile_cons,
        if_pos (h c (List.mem_cons_self c rest))]
      exact ih fun d hd => h d (List.mem_cons_of_mem c hd)

theorem mem_takeWhile (p : Char → Bool) (l : List Char) (c : Char)
    (h : c ∈ l.takeWhile p) : p c = true := by
  induction l with
  | nil => simp at h
  | cons d rest ih =>
      rw [List.takeWhile_cons] at h
      by_cases hd : p d = true
      · rw [if_pos hd] at h
        rcases List.mem_cons.mp h with h | h
        · subst h; exact hd
        · exact ih h
      · rw [if_neg hd] at h
        simp at h

theorem goodWords_splitWs : ∀ (n : Nat) (s : List Char), s.length ≤ n →
    goodWords (splitWs s) := by
  intro n
  induction n with
  | zero =>
      intro s hlen
      have : s = [] := List.length_eq_zero.mp (Nat.le_zero.mp hlen)
      subst this
      intro w hw
      simp [splitWs, splitWsF] at hw
  | succ n ih =>
      intro s hlen
      cases s with
      | nil =>
          intro w hw
          simp [splitWs, splitWsF] at hw
      | cons c rest =>
          have hr : rest.length ≤ n := by
            simp [List.length_cons] at hlen
            omega
          by_cases hc : isPySpace c = true
          · rw [splitWs_cons_space c rest hc]
            exact ih rest hr
          · have hc' : isPySpace c = false := by simpa using hc
            rw [splitWs_cons_word c rest hc']
            intro w hw
            rcases List.mem_cons.mp hw with hw | hw
            · subst hw
              refine ⟨by simp, fun d hd => ?_⟩
              rcases List.mem_cons.mp hd with hd | hd
              · subst hd; exact hc'
              · have := mem_takeWhile _ rest d hd
                simpa using this
            · exact ih (rest.dropWhile fun d => !isPySpace d)
                (Nat.le_trans (length_dropWhile_le _ rest) hr) w hw

theorem splitWs_joinWords (ws : List (List Char)) (h : goodWords ws) :
    splitWs (joinWords ws) = ws := by
  induction ws with
  | nil => rfl
  | cons w ws ih =>
      obtain ⟨hw, hchars⟩ := h w (List.mem_cons_self w ws)
      cases w with
      | nil => exact absurd rfl hw
      | cons c w' =>
          have hc : isPySpace c = false := hchars c (List.mem_cons_self c w')
          have hw' : ∀ d ∈ w', (fun d => !isPySpace d) d = true := fun d hd => by
            simp [hchars d (List.mem_cons_of_mem c hd)]
          cases ws with
          | nil =>
              show splitWs (c :: w') = [c :: w']
              rw [splitWs_cons_word c w' hc, takeWhile_all _ w' hw',
                dropWhile_all _ w' hw']
              rfl
          | cons v ws' =>
              show splitWs (c :: (w' ++ ' ' :: joinWords (v :: ws'))) = _
              rw [splitWs_cons_word c _ hc,
                takeWhile_append_all _ w' _ hw',
                dropWhile_append_all _ w' _ hw']
              rw [show List.takeWhile (fun d => !isPySpace d)
                  (' ' :: joinWords (v :: ws')) = [] from by
                rw [List.takeWhile_cons]
                simp [isPySpace]]
              rw [show List.dropWhile (fun d => !isPySpace d)
                  (' ' :: joinWords (v :: ws')) = ' ' :: joinWords (v :: ws') from by
                rw [List.dropWhile_cons]
                simp [isPySpace]]
              rw [splitWs_cons_space ' ' _ (by simp [isPySpace]),
                ih fun u hu => h u (List.mem_cons_of_mem _ hu)]
              simp

theorem angles_joinWords (ws : List (List Char)) :
    angles (joinWords ws) = angles ws.flatten := by
  induction ws with
  | nil => rfl
  | cons w ws ih =>
      cases ws with
      | nil => simp [joinWords, angles]
      | cons v ws' =>
          show angles (w ++ ' ' :: joinWords (v :: ws')) = _
          rw [angles_append, show (' ' :: joinWords (v :: ws')) =
            [' '] ++ joinWords (v :: ws') from rfl, angles_append]
          rw [show angles [' '] = [] from rfl, List.nil_append, ih]
          simp [List.flatten_cons, angles_append]

theorem space_not_angle (c : Char) (h : isPySpace c = true) :
    isAngle c = false := by
  by_contra hne
  have ha : isAngle c = true := by
    cases hval : isAngle c
    · exact absurd hval hne
    · rfl
  simp [isAngle] at ha
  rcases ha with ha | ha <;> subst ha <;> exact absurd h (by decide)

theorem angles_flatten_splitWs : ∀ (n : Nat) (s : List Char), s.length ≤ n →
    angles (splitWs s).flatten = angles s := by
  intro n
  induction n with
  | zero =>
      intro s hlen
      have : s = [] := List.length_eq_zero.mp (Nat.le_zero.mp hlen)
      subst this
      rfl
  | succ n ih =>
      intro s hlen
      cases s with
      | nil => rfl
      | cons c rest =>
          have hr : rest.length ≤ n := by
            simp [List.length_cons] at hlen
            omega
          by_cases hc : isPySpace c = true
          · have hca : isAngle c = false := space_not_angle c hc
            rw [splitWs_cons_space c rest hc, ih rest hr]
            simp [angles, List.filter, hca]
          · have hc' : isPySpace c = false := by simpa using hc
            rw [splitWs_cons_word c rest hc', List.flatten_cons,
              angles_append,
              ih _ (Nat.le_trans (length_dropWhile_le _ rest) hr)]
            rw [← angles_append, List.cons_append,
              List.takeWhile_append_dropWhile]

theorem mem_joinWords (c : Char) (ws : List (List Char))
    (h : c ∈ joinWords ws) : c = ' ' ∨ ∃ w ∈ ws, c ∈ w := by
  induction ws with
  | nil => simp [joinWords] at h
  | cons w ws ih =>
      cases ws with
      | nil =>
          right
          exact ⟨w, List.mem_cons_self w [], h⟩
      | cons v ws' =>
          rw [show joinWords (w :: v :: ws') =
            w ++ ' ' :: joinWords (v :: ws') from rfl] at h
          rcases List.mem_append.mp h with h | h
          · right; exact ⟨w, List.mem_cons_self w _, h⟩
          · rcases List.mem_cons.mp h with h | h
            · left; exact h
            · rcases ih h with h | ⟨u, hu, hcu⟩
              · left; exact h
              · right; exact ⟨u, List.mem_cons_of_mem w hu, hcu⟩

theorem map_angle_fix (r : Char) (hr : isAngle r = false) (c : Char)
    (hc : isAngle c = true) : (if c = r then ' ' else c) = c := by
  by_cases hcr : c = r
  · subst hcr
    rw [hc] at hr
    exact absurd hr (by decide)
  · rw [if_neg hcr]

theorem map_angle_keep (r : Char) (hr : isAngle r = false) (c : Char) :
    isAngle (if c = r then ' ' else c) = isAngle c := by
  by_cases hcr : c = r
  · subst hcr
    rw [if_pos rfl, hr]
    rfl
  · rw [if_neg hcr]

theorem sanitize_text_eq (x : String) (h : ¬(x = "" ∨ x = "N/A")) :
    sanitize_text x = String.mk (joinWords (splitWs (sanitizeCore x))) := by
  simp only [sanitize_text]
  rw [if_neg h]

theorem tagFree_sanitizeCore (x : String) :
    tagFree (sanitizeCore x) = true := by
  simp only [sanitizeCore, stripTags, replaceAll]
  rw [← tagFree_angles,
    angles_map _ _ (map_angle_fix '\n' (by decide)) (map_angle_keep '\n' (by decide)),
    angles_map _ _ (map_angle_fix '\r' (by decide)) (map_angle_keep '\r' (by decide)),
    angles_replaceAllF _ _ _ _ (by decide) (by decide),
    angles_replaceAllF _ _ _ _ (by decide) (by decide),
    angles_replaceAllF _ _ _ _ (by decide) (by decide),
    tagFree_angles]
  exact tagFree_stripTagsF _ _ (Nat.le_refl _)

theorem mem_insertByTime (x e : Event) (l : List Event) :
    x ∈ insertByTime e l ↔ x = e ∨ x ∈ l := by
  induction l with
  | nil => simp [insertByTime]
  | cons f rest ih =>
      by_cases hef : e.DateTime24 ≤ f.DateTime24 <;>
        (simp [insertByTime, hef, ih]; try tauto)

theorem perm_insertByTime (e : Event) (l : List Event) :
    (insertByTime e l).Perm (e :: l) := by
  induction l with
  | nil => exact List.Perm.refl _
  | cons f rest ih =>
      by_cases hef : e.DateTime24 ≤ f.DateTime24
      · simp [insertByTime, hef]
      · simp only [insertByTime, hef, if_false]
        exact (ih.cons f).trans (List.Perm.swap e f rest)

theorem pairwise_insertByTime (e : Event) (l : List Event)
    (h : List.Pairwise timeLe l) :
    List.Pairwise timeLe (insertByTime e l) := by
  induction l with
  | nil => simp [insertByTime, List.pairwise_cons]
  | cons f rest ih =>
      rw [List.pairwise_cons] at h
      by_cases hef : e.DateTime24 ≤ f.DateTime24
      · simp only [insertByTime, hef, if_true]
        rw [List.pairwise_cons]
        refine ⟨fun b hb => ?_, List.pairwise_cons.mpr h⟩
        rcases List.mem_cons.mp hb with hb | hb
        · subst hb; exact hef
        · exact Int.le_trans hef (h.1 b hb)
      · simp only [insertByTime, hef, if_false]
        rw [List.pairwise_cons]
        refine ⟨fun b hb => ?_, ih h.2⟩
        rcases (mem_insertByTime b e rest).mp hb with hb | hb
        · subst hb
          unfold timeLe
          omega
        · exact h.1 b hb

theorem sort_values_DateTime24_sorted (l : List Event) :
    List.Pairwise timeLe (sort_values_DateTime24 l) := by
  induction l with
  | nil => simp [sort_values_DateTime24]
  | cons e rest ih => exact pairwise_insertByTime e _ ih

theorem sort_values_DateTime24_perm (l : List Event) :
    (sort_values_DateTime24 l).Perm l := by
  induction l with
  | nil => exact List.Perm.refl _
  | cons e rest ih =>
      exact (perm_insertByTime e (sort_values_DateTime24 rest)).trans (ih.cons e)

/-! ## Claim theorems -/

/-- C2: the fingerprint of a canonical event is
`lower(summary) ++ displayTime`, and it depends on no other field: two
events agreeing on `Summary` and `DateTime` have equal fingerprints. -/
theorem fingerprint_depends_only_on_summary_time (a b : Event)
    (hs : a.Summary = b.Summary) (hd : a.DateTime = b.DateTime) :
    fingerprint a = fingerprint b ∧
      fingerprint a = strLower a.Summary ++ a.DateTime :=
  ⟨by simp [fingerprint, hs, hd], rfl⟩

theorem fingerprint_depends_only_on_summary_time_witness :
    fingerprint sampleEvent3 = fingerprint sampleEvent4 ∧
      fingerprint sampleEvent3 = strLower sampleEvent3.Summary ++ sampleEvent3.DateTime :=
  fingerprint_depends_only_on_summary_time sampleEvent3 sampleEvent4 rfl rfl

/-- C3: the retrieval statement of `fetch_calendar` references the
unbound name `requests` (the module imports `httpx` instead), so the body
raises `NameError` on every call, the catch-all handler returns `[]`, and
every run therefore aggregates zero events from every source. -/
theorem fetch_calendar_always_empty :
    (∀ (net : Net) (name url : String), fetch_calendar net name url = []) ∧
    (∀ (net : Net) (sources : List (String × String)),
      aggregateCommunity net sources = []) := by
  have h1 : ∀ (net : Net) (name url : String), fetch_calendar net name url = [] := by
    intro net name url
    rfl
  refine ⟨h1, fun net sources => ?_⟩
  induction sources with
  | nil => rfl
  | cons s rest ih => cases s; simp [aggregateCommunity, h1, ih]

/-- C4 (failing input): with one side empty and the other not, line 83/84
raises `KeyError` (`pd.DataFrame([])` has no `Summary` column), instead of
producing empty key sets and empty buckets as the spec requires. -/
theorem reconcile_raises_on_empty_side :
    reconcileE [] [sampleEvent2] = .error .keyError ∧
    reconcileE [sampleEvent] [] = .error .keyError :=
  ⟨rfl, rfl⟩

/-- C5 (counterexample): sanitization is not idempotent — a pure-space
input sanitizes to the empty string, which re-sanitizes to the `"N/A"`
sentinel. -/
theorem sanitize_not_idempotent_on_space :
    sanitize_text (sanitize_text " ") ≠ sanitize_text " " := by decide

/-- C5 (amended): sanitization is idempotent on every input whose
sanitized result is nonempty and contains none of the entity substrings
`&nbsp;`, `&amp;`, `&quot;` (a residual entity would be decoded again by
the second pass, and an empty result would be mapped to the sentinel). -/
theorem sanitize_idempotent_conditional (x : String)
    (h1 : sanitize_text x ≠ "")
    (h2 : hasSubstr "&nbsp;".data (sanitize_text x).data = false)
    (h3 : hasSubstr "&amp;".data (sanitize_text x).data = false)
    (h4 : hasSubstr "&quot;".data (sanitize_text x).data = false) :
    sanitize_text (sanitize_text x) = sanitize_text x := by
  by_cases h0 : x = "" ∨ x = "N/A"
  · have hx : sanitize_text x = "N/A" := by
      simp only [sanitize_text]
      rw [if_pos h0]
    rw [hx]
    decide
  · by_cases hNA : sanitize_text x = "N/A"
    · rw [hNA]
      decide
    · have hne : ¬(sanitize_text x = "" ∨ sanitize_text x = "N/A") := by tauto
      have hws : (sanitize_text x).data = joinWords (splitWs (sanitizeCore x)) := by
        rw [sanitize_text_eq x h0]
      have hgood : goodWords (splitWs (sanitizeCore x)) :=
        goodWords_splitWs (sanitizeCore x).length _ (Nat.le_refl _)
      have htf : tagFree (sanitize_text x).data = true := by
        rw [hws, ← tagFree_angles, angles_joinWords,
          angles_flatten_splitWs (sanitizeCore x).length _ (Nat.le_refl _),
          tagFree_angles]
        exact tagFree_sanitizeCore x
      have hnosp : ∀ c ∈ (sanitize_text x).data, isPySpace c = false ∨ c = ' ' := by
        intro c hc
        rw [hws] at hc
        rcases mem_joinWords c _ hc with hc | ⟨w, hw, hcw⟩
        · right; exact hc
        · left; exact (hgood w hw).2 c hcw
      have hnr : ∀ c ∈ (sanitize_text x).data, (if c = '\r' then ' ' else c) = c := by
        intro c hc
        rcases hnosp c hc with hsp | hsp
        · by_cases hcr : c = '\r'
          · subst hcr
            exact absurd hsp (by decide)
          · rw [if_neg hcr]
        · subst hsp
          rfl
      have hnn : ∀ c ∈ (sanitize_text x).data, (if c = '\n' then ' ' else c) = c := by
        intro c hc
        rcases hnosp c hc with hsp | hsp
        · by_cases hcr : c = '\n'
          · subst hcr
            exact absurd hsp (by decide)
          · rw [if_neg hcr]
        · subst hsp
          rfl
      have hcore : sanitizeCore (sanitize_text x) = (sanitize_text x).data := by
        simp only [sanitizeCore, stripTags, replaceAll]
        rw [stripTagsF_of_tagFree _ _ htf,
          replaceAllF_of_not_hasSubstr _ _ _ _ h2,
          replaceAllF_of_not_hasSubstr _ _ _ _ h3,
          replaceAllF_of_not_hasSubstr _ _ _ _ h4,
          map_id_on _ _ hnr, map_id_on _ _ hnn]
      rw [sanitize_text_eq _ hne, hcore, hws, splitWs_joinWords _ hgood, ← hws]

theorem sanitize_idempotent_conditional_witness :
    (sanitize_text "Rally Fi&ve" ≠ "" ∧
      hasSubstr "&nbsp;".data (sanitize_text "Rally Fi&ve").data = false ∧
      hasSubstr "&amp;".data (sanitize_text "Rally Fi&ve").data = false ∧
      hasSubstr "&quot;".data (sanitize_text "Rally Fi&ve").data = false) ∧
    sanitize_text (sanitize_text "Rally Fi&ve") = sanitize_text "Rally Fi&ve" :=
  ⟨⟨by decide, by decide, by decide, by decide⟩,
    sanitize_idempotent_conditional "Rally Fi&ve"
      (by decide) (by decide) (by decide) (by decide)⟩

/-- C6 (counterexample): the spec's Scenario D output is wrong — stripping
`<br>` inserts no space, so the sanitized summary is not
`"Rally Today & Tomorrow"`. -/
theorem sanitize_scenarioD_ne_spec :
    sanitize_text "Rally<br>Today &amp; Tomorrow\n" ≠ "Rally Today & Tomorrow" := by
  decide

/-- C6 (amended): the raw summary `"Rally<br>Today &amp; Tomorrow\n"`
sanitizes to `"RallyToday & Tomorrow"` (tag stripped without inserting a
space, `&amp;` decoded, newline collapsed, whitespace trimmed). -/
theorem sanitize_scenarioD_actual :
    sanitize_text "Rally<br>Today &amp; Tomorrow\n" = "RallyToday & Tomorrow" := by
  decide

/-- C1: whenever the reconciliation produces an output, `synced` is
exactly the community records whose fingerprint is among the master
fingerprints, `missing` exactly those whose fingerprint is not, their
union is `community` (as sets), their intersection is empty, and every
community record lands in exactly one of the two buckets. -/
theorem reconcile_partitions_community (master community : List Event)
    (p : Partition) (h : reconcileE master community = .ok p) :
    (∀ e, e ∈ p.synced ↔ e ∈ community ∧ fingerprint e ∈ master.map fingerprint) ∧
    (∀ e, e ∈ p.missing ↔ e ∈ community ∧ fingerprint e ∉ master.map fingerprint) ∧
    (∀ e, (e ∈ p.synced ∨ e ∈ p.missing) ↔ e ∈ community) ∧
    (∀ e, ¬(e ∈ p.synced ∧ e ∈ p.missing)) := by
  unfold reconcileE fingerprintColumn at h
  by_cases hm : master.isEmpty <;> by_cases hc : community.isEmpty <;>
    simp [hm, hc, bind, Except.bind, pure, Except.pure] at h
  subst h
  refine ⟨fun e => ?_, fun e => ?_, fun e => ?_, fun e => ?_⟩ <;>
    simp [List.mem_filter, List.elem_iff, List.mem_map] <;>
    by_cases hex : ∃ a ∈ master, fingerprint a = fingerprint e <;> aesop

theorem reconcile_partitions_community_witness :
    (∀ e, e ∈ (Partition.mk [sampleEvent2] [sampleEvent3] []).synced ↔
      e ∈ [sampleEvent3, sampleEvent2] ∧
        fingerprint e ∈ [sampleEvent].map fingerprint) ∧
    (∀ e, e ∈ (Partition.mk [sampleEvent2] [sampleEvent3] []).missing ↔
      e ∈ [sampleEvent3, sampleEvent2] ∧
        fingerprint e ∉ [sampleEvent].map fingerprint) ∧
    (∀ e, (e ∈ (Partition.mk [sampleEvent2] [sampleEvent3] []).synced ∨
      e ∈ (Partition.mk [sampleEvent2] [sampleEvent3] []).missing) ↔
        e ∈ [sampleEvent3, sampleEvent2]) ∧
    (∀ e, ¬(e ∈ (Partition.mk [sampleEvent2] [sampleEvent3] []).synced ∧
      e ∈ (Partition.mk [sampleEvent2] [sampleEvent3] []).missing)) :=
  reconcile_partitions_community [sampleEvent] [sampleEvent3, sampleEvent2]
    (Partition.mk [sampleEvent2] [sampleEvent3] []) rfl

/-- C8: a source whose `fetch_calendar` body raises (or whose content
lacks the calendar marker and so returns an empty list) contributes
exactly zero events, the failure stops at the `except` handler of lines
49-51, every remaining source is still processed, and the aggregate of
lines 71-74 is exactly the concatenation of the per-source
contributions. -/
theorem aggregate_isolates_source_failures (net : Net)
    (pre post : List (String × String)) (name url : String)
    (h : (∃ err, fetch_calendar_try net name url = .error err) ∨
      fetch_calendar_try net name url = .ok []) :
    fetch_calendar net name url = [] ∧
    aggregateCommunity net (pre ++ (name, url) :: post) =
      aggregateCommunity net pre ++ aggregateCommunity net post ∧
    ∀ sources, aggregateCommunity net sources =
      (sources.map fun s => fetch_calendar net s.1 s.2).flatten := by
  have hz : fetch_calendar net name url = [] := by
    unfold fetch_calendar
    rcases h with ⟨err, herr⟩ | hok
    · rw [herr]
    · rw [hok]
  have hjoin : ∀ sources, aggregateCommunity net sources =
      (sources.map fun s => fetch_calendar net s.1 s.2).flatten := by
    intro sources
    induction sources with
    | nil => rfl
    | cons s rest ih => cases s; simp [aggregateCommunity, ih]
  refine ⟨hz, ?_, hjoin⟩
  rw [aggregateCommunity_append]
  simp [aggregateCommunity, hz]

theorem aggregate_isolates_source_failures_witness :
    fetch_calendar sampleNet "Gritroc" "https://x.ics" = [] ∧
    aggregateCommunity sampleNet
        ([("GVI", "https://a.ics")] ++ ("Gritroc", "https://x.ics") ::
          [("IndiWMC", "https://b.ics")]) =
      aggregateCommunity sampleNet [("GVI", "https://a.ics")] ++
        aggregateCommunity sampleNet [("IndiWMC", "https://b.ics")] ∧
    ∀ sources, aggregateCommunity sampleNet sources =
      (sources.map fun s => fetch_calendar sampleNet s.1 s.2).flatten :=
  aggregate_isolates_source_failures sampleNet
    [("GVI", "https://a.ics")] [("IndiWMC", "https://b.ics")]
    "Gritroc" "https://x.ics" (Or.inl ⟨.nameError, rfl⟩)

/-- C9: normalization is total and degrades malformed fields to the
sentinel: an absent (`None`), empty, or literal `"N/A"` text attribute
yields `"N/A"` in `Summary`/`Location`/`Description`, and a missing `uid`
attribute yields `UID = "N/A"` instead of failing the record. -/
theorem normalize_degrades_to_sentinel (name : String) (ev : RawEvent) :
    (ev.summary = none ∨ ev.summary = some "" ∨ ev.summary = some "N/A" →
      (normalizeEvent name ev).Summary = "N/A") ∧
    (ev.location = none ∨ ev.location = some "" ∨ ev.location = some "N/A" →
      (normalizeEvent name ev).Location = "N/A") ∧
    (ev.description = none ∨ ev.description = some "" ∨ ev.description = some "N/A" →
      (normalizeEvent name ev).Description = "N/A") ∧
    (ev.uid = none → (normalizeEvent name ev).UID = "N/A") := by
  refine ⟨fun h => ?_, fun h => ?_, fun h => ?_, fun h => ?_⟩ <;>
    [skip; skip; skip; simp [normalizeEvent, h]] <;>
    rcases h with h | h | h <;>
    simp [normalizeEvent, sanitizeOpt, sanitize_text, h]

theorem normalize_degrades_to_sentinel_witness :
    (normalizeEvent "GVI" sampleRaw).Summary = "N/A" ∧
    (normalizeEvent "GVI" sampleRaw).Location = "N/A" ∧
    (normalizeEvent "GVI" sampleRaw).Description = "N/A" ∧
    (normalizeEvent "GVI" sampleRaw).UID = "N/A" := by
  have h := normalize_degrades_to_sentinel "GVI" sampleRaw
  exact ⟨h.1 (Or.inl rfl), h.2.1 (Or.inl rfl), h.2.2.1 (Or.inl rfl), h.2.2.2 rfl⟩

/-- C10 (counterexample): the rendered rows are NOT sorted primarily by
the source label — with a `"ZZZ"`-sourced event at an earlier instant
than an `"AAA"`-sourced one, `sort_values('DateTime24')` keeps the
`"ZZZ"` row first. -/
theorem tables_not_sorted_by_source :
    reconcileE [sampleEvent] [cexZ, cexA] =
      .ok (Partition.mk [cexZ, cexA] [] [sampleEvent]) ∧
    missingRows (Partition.mk [cexZ, cexA] [] [sampleEvent]) = [cexZ, cexA] ∧
    ¬ List.Pairwise bySourceThenTime
        (missingRows (Partition.mk [cexZ, cexA] [] [sampleEvent])) := by
  refine ⟨rfl, rfl, fun h => ?_⟩
  rw [show missingRows (Partition.mk [cexZ, cexA] [] [sampleEvent]) =
    [cexZ, cexA] from rfl] at h
  have hrel := (List.pairwise_cons.mp h).1 cexA (List.mem_cons_self cexA [])
  rcases hrel with hlt | ⟨heq, _⟩
  · exact absurd hlt (by decide)
  · exact absurd heq (by decide)

/-- C10 (amended): each rendered bucket is sorted by the zone-aware
instant `DateTime24` alone (ascending, a permutation of the bucket); the
source label is not a sort key, and the formatted display string is not
consulted. -/
theorem tables_sorted_by_sortTime (master community : List Event)
    (p : Partition) (_h : reconcileE master community = .ok p) :
    (List.Pairwise timeLe (missingRows p) ∧ (missingRows p).Perm p.missing) ∧
    (List.Pairwise timeLe (syncedRows p) ∧ (syncedRows p).Perm p.synced) ∧
    (List.Pairwise timeLe (ioOnlyRows p) ∧ (ioOnlyRows p).Perm p.io_only) :=
  ⟨⟨sort_values_DateTime24_sorted p.missing, sort_values_DateTime24_perm p.missing⟩,
   ⟨sort_values_DateTime24_sorted p.synced, sort_values_DateTime24_perm p.synced⟩,
   ⟨sort_values_DateTime24_sorted p.io_only, sort_values_DateTime24_perm p.io_only⟩⟩

theorem tables_sorted_by_sortTime_witness :
    (List.Pairwise timeLe (missingRows (Partition.mk [sampleEvent2] [sampleEvent3] [])) ∧
      (missingRows (Partition.mk [sampleEvent2] [sampleEvent3] [])).Perm [sampleEvent2]) ∧
    (List.Pairwise timeLe (syncedRows (Partition.mk [sampleEvent2] [sampleEvent3] [])) ∧
      (syncedRows (Partition.mk [sampleEvent2] [sampleEvent3] [])).Perm [sampleEvent3]) ∧
    (List.Pairwise timeLe (ioOnlyRows (Partition.mk [sampleEvent2] [sampleEvent3] [])) ∧
      (ioOnlyRows (Partition.mk [sampleEvent2] [sampleEvent3] [])).Perm []) :=
  tables_sorted_by_sortTime [sampleEvent] [sampleEvent3, sampleEvent2]
    (Partition.mk [sampleEvent2] [sampleEvent3] []) rfl

/-- C7 (failing input): the critical branch fires exactly when both
fetched lists are empty, but in the mixed case (master non-empty,
community empty) the run neither completes with a report nor signals the
critical condition — it raises an uncaught `KeyError` at line 84. -/
theorem run_mixed_empty_raises :
    runAfterFetch [] [] = .critical ∧
    runAfterFetch [sampleEvent] [] = .raised .keyError ∧
    (∀ p, runAfterFetch [sampleEvent] [] ≠ .report p) ∧
    runAfterFetch [sampleEvent] [] ≠ .critical := by
  refine ⟨rfl, rfl, fun p h => ?_, by decide⟩
  rw [show runAfterFetch [sampleEvent] [] = .raised .keyError from rfl] at h
  exact RunResult.noConfusion h

end CalReport
